import Mathlib

/-!
Verification of the outage-query repository core: the anomaly Detector
(`resources/tweet_analyzer.py`) and the paginated ingestion Fetcher
(`resources/tweet_query.py`), shallowly embedded in Lean.

Timestamps are epoch seconds, modelled as `ℤ`.  Python's arbitrary-precision
integers map to `ℤ`/`ℕ` directly.  The sample standard deviation computed by
`statistics.stdev` is the square root of the exact rational sample variance;
since the only use of the value in the control flow is the comparison
`stdev < 100`, and `sqrt v < t ↔ v < t²` for `t ≥ 0`, the embedding carries
the exact rational variance and compares it against `100 ^ 2`.
-/

namespace TweetAnalyzer

/-- `count_range_in_list` from `tweet_analyzer.py`: counts the items `t` of the
list with `mn ≤ t ≤ mx` (both edges inclusive). -/
def count_range_in_list (l : List ℤ) (mn mx : ℤ) : ℕ :=
  match l with
  | [] => 0
  | item :: rest =>
      (if mn ≤ item ∧ item ≤ mx then 1 else 0) + count_range_in_list rest mn mx

/-- The `while again:` bin-walking loop of `lambda_handler`
(`tweet_analyzer.py`): count the events in `[mn, mx]`, append, advance
`mn := mx`, `mx := mx + B`, and stop once the advanced `mx` exceeds
`end_time`.  `B` is the loop's increment `i` (3600 in the source); the source
loop terminates only for a positive increment, hence the hypothesis `hB`. -/
def binWalk (mylist : List ℤ) (end_time B : ℤ) (hB : 0 < B) (mn mx : ℤ) : List ℕ :=
  if mx + B > end_time then
    [count_range_in_list mylist mn mx]
  else
    count_range_in_list mylist mn mx :: binWalk mylist end_time B hB mx (mx + B)
termination_by (end_time - mx).toNat
decreasing_by
  simp only [gt_iff_lt, not_lt] at *
  omega

/-- The distribution computed by `lambda_handler`: the loop starts with
`min = start_time`, `max = start_time + i`. -/
def distribution (mylist : List ℤ) (start_time end_time B : ℤ)
    (hB : 0 < B := by norm_num) : List ℕ :=
  binWalk mylist end_time B hB start_time (start_time + B)

theorem binWalk_unfold (mylist : List ℤ) (end_time B : ℤ) (hB : 0 < B) (mn mx : ℤ) :
    binWalk mylist end_time B hB mn mx =
      if mx + B > end_time then
        [count_range_in_list mylist mn mx]
      else
        count_range_in_list mylist mn mx :: binWalk mylist end_time B hB mx (mx + B) := by
  rw [binWalk]

/-- The loop emits the final bin and stops once the advanced upper edge
passes `end_time`. -/
theorem binWalk_stop (mylist : List ℤ) (end_time B : ℤ) (hB : 0 < B) (mn mx : ℤ)
    (h : end_time < mx + B) :
    binWalk mylist end_time B hB mn mx = [count_range_in_list mylist mn mx] := by
  rw [binWalk_unfold, if_pos h]

/-- The loop emits the current bin and keeps walking while the advanced upper
edge has not passed `end_time`. -/
theorem binWalk_go (mylist : List ℤ) (end_time B : ℤ) (hB : 0 < B) (mn mx : ℤ)
    (h : mx + B ≤ end_time) :
    binWalk mylist end_time B hB mn mx =
      count_range_in_list mylist mn mx :: binWalk mylist end_time B hB mx (mx + B) := by
  rw [binWalk_unfold, if_neg (not_lt.mpr h)]

theorem binWalk_length_aux (mylist : List ℤ) (end_time B : ℤ) (hB : 0 < B) :
    ∀ (n : ℕ) (mn mx : ℤ), (end_time - mx).toNat ≤ n →
      (binWalk mylist end_time B hB mn mx).length
        = (end_time - mx).toNat / B.toNat + 1 := by
  intro n
  induction n with
  | zero =>
      intro mn mx hle
      rw [binWalk_stop mylist end_time B hB mn mx (by omega)]
      have h0 : (end_time - mx).toNat = 0 := by omega
      simp [h0]
  | succ k ih =>
      intro mn mx hle
      by_cases h : mx + B ≤ end_time
      · rw [binWalk_go mylist end_time B hB mn mx h]
        simp only [List.length_cons]
        rw [ih mx (mx + B) (by omega)]
        have hb : 0 < B.toNat := by omega
        have hle2 : B.toNat ≤ (end_time - mx).toNat := by omega
        have hsub : (end_time - (mx + B)).toNat = (end_time - mx).toNat - B.toNat := by
          omega
        rw [hsub]
        conv_rhs => rw [Nat.div_eq_sub_div hb hle2]
      · rw [binWalk_stop mylist end_time B hB mn mx (by omega)]
        have : (end_time - mx).toNat / B.toNat = 0 := Nat.div_eq_of_lt (by omega)
        simp [this]

/-- Closed form for the number of iterations of the bin-walking loop. -/
theorem binWalk_length (mylist : List ℤ) (end_time B : ℤ) (hB : 0 < B) (mn mx : ℤ) :
    (binWalk mylist end_time B hB mn mx).length
      = (end_time - mx).toNat / B.toNat + 1 :=
  binWalk_length_aux mylist end_time B hB (end_time - mx).toNat mn mx le_rfl

/-- Closed form for the length of the distribution produced by the loop:
one bin is always emitted, and one more for every further full bin width that
fits before `end_time`. -/
theorem distribution_length (mylist : List ℤ) (start_time end_time B : ℤ) (hB : 0 < B) :
    (distribution mylist start_time end_time B hB).length
      = (end_time - start_time - B).toNat / B.toNat + 1 := by
  rw [distribution, binWalk_length]
  have : (end_time - (start_time + B)).toNat = (end_time - start_time - B).toNat := by
    omega
  rw [this]

/-- C3 (amended): for `start_time < end_time` and positive bin width `B`, the
bin-count sequence produced by the Detector's bin-walking loop has length
`max 1 ⌊(end_time - start_time) / B⌋`, i.e. the floor of the window over the
bin width but at least one — not the ceiling claimed by the spec. -/
theorem C3_bin_count_length (l : List ℤ) (s e B : ℤ) (hB : 0 < B) (hse : s < e) :
    (distribution l s e B hB).length = max 1 ((e - s).toNat / B.toNat) := by
  rw [distribution_length]
  have hb : 0 < B.toNat := by omega
  by_cases h : e - s < B
  · have h1 : (e - s - B).toNat = 0 := by omega
    have h2 : (e - s).toNat / B.toNat = 0 := Nat.div_eq_of_lt (by omega)
    rw [h1, Nat.zero_div, h2]
    simp
  · have hle2 : B.toNat ≤ (e - s).toNat := by omega
    have hdiv : (e - s).toNat / B.toNat
        = ((e - s).toNat - B.toNat) / B.toNat + 1 := Nat.div_eq_sub_div hb hle2
    have hsub : (e - s - B).toNat = (e - s).toNat - B.toNat := by omega
    rw [hsub, hdiv, Nat.max_eq_right (Nat.le_add_left 1 _)]

/-- C3 counterexample: a scan window of 5400 seconds with bin width 3600
yields a single bin count, whereas the claim's formula
`⌈(end_time - start_time) / B⌉` gives 2. -/
theorem C3_counterexample :
    ¬ ((distribution [] 0 5400 3600).length = ⌈((5400 : ℚ) - 0) / 3600⌉₊) := by
  have h1 : (distribution [] 0 5400 3600).length = 1 := by
    norm_num [distribution, binWalk_stop, binWalk_go, count_range_in_list]
  have h2 : ⌈((5400 : ℚ) - 0) / 3600⌉₊ = 2 := by
    rw [Nat.ceil_eq_iff (by norm_num)]
    norm_num
  rw [h1, h2]
  norm_num

/-- C3 witness for the amended statement: the 5400-second window with
3600-second bins yields `max 1 ⌊5400/3600⌋ = 1` bin. -/
theorem C3_amended_witness :
    (0 : ℤ) < 3600 ∧ (0 : ℤ) < 5400
      ∧ (distribution [] 0 5400 3600).length = max 1 (((5400 : ℤ) - 0).toNat / (3600 : ℤ).toNat) :=
  ⟨by norm_num, by norm_num, C3_bin_count_length [] 0 5400 3600 (by norm_num) (by norm_num)⟩

/-- C10: the bin-walking loop appends the first bin's count before testing its
termination condition, so the distribution it produces is never empty, and a
window shorter than one bin width (including an empty or inverted window)
yields exactly one bin count. -/
theorem C10_distribution_nonempty (l : List ℤ) (s e B : ℤ) (hB : 0 < B) :
    distribution l s e B hB ≠ []
      ∧ (e - s < B → (distribution l s e B hB).length = 1) := by
  constructor
  · rw [distribution, binWalk_unfold]
    split <;> simp
  · intro h
    rw [distribution_length]
    have h1 : (e - s - B).toNat = 0 := by omega
    rw [h1, Nat.zero_div]

/-- C10 witness: an empty window (`start_time = end_time = 0`) still yields a
one-entry distribution. -/
theorem C10_witness :
    distribution [] 0 0 3600 ≠ []
      ∧ ((0 : ℤ) - 0 < 3600 → (distribution [] 0 0 3600).length = 1) :=
  C10_distribution_nonempty [] 0 0 3600 (by norm_num)

/-- `count_range_in_list` counts exactly the elements passing the
inclusive-inclusive range test. -/
theorem count_range_eq_filter_length (l : List ℤ) (mn mx : ℤ) :
    count_range_in_list l mn mx
      = (l.filter fun t => decide (mn ≤ t ∧ t ≤ mx)).length := by
  induction l with
  | nil => rfl
  | cons a t ih =>
      simp only [count_range_in_list, List.filter_cons]
      by_cases h : mn ≤ a ∧ a ≤ mx
      · simp [h, ih]
        omega
      · simp [h, ih]

theorem binWalk_getD_aux (mylist : List ℤ) (e B : ℤ) (hB : 0 < B) :
    ∀ (n : ℕ) (mn mx : ℤ), (e - mx).toNat ≤ n → mx = mn + B →
      ∀ j : ℕ, j < (binWalk mylist e B hB mn mx).length →
        (binWalk mylist e B hB mn mx).getD j 0
          = count_range_in_list mylist (mn + (j : ℤ) * B) (mn + ((j : ℤ) + 1) * B) := by
  intro n
  induction n with
  | zero =>
      intro mn mx hle hmx j hj
      rw [binWalk_stop mylist e B hB mn mx (by omega)] at hj ⊢
      simp only [List.length_singleton] at hj
      have hj0 : j = 0 := by omega
      subst hj0
      subst hmx
      norm_num
  | succ k ih =>
      intro mn mx hle hmx j hj
      by_cases h : mx + B ≤ e
      · rw [binWalk_go mylist e B hB mn mx h] at hj ⊢
        match j with
        | 0 =>
            subst hmx
            norm_num
        | Nat.succ j =>
            rw [List.getD_cons_succ]
            simp only [List.length_cons] at hj
            rw [ih mx (mx + B) (by omega) rfl j (by omega)]
            subst hmx
            congr 1 <;> push_cast <;> ring
      · rw [binWalk_stop mylist e B hB mn mx (by omega)] at hj ⊢
        simp only [List.length_singleton] at hj
        have hj0 : j = 0 := by omega
        subst hj0
        subst hmx
        norm_num

/-- The `j`-th entry of the distribution is the inclusive count over the bin
`[start_time + j*B, start_time + (j+1)*B]`; consecutive bins share an edge. -/
theorem distribution_getD (mylist : List ℤ) (s e B : ℤ) (hB : 0 < B) (j : ℕ)
    (hj : j < (distribution mylist s e B hB).length) :
    (distribution mylist s e B hB).getD j 0
      = count_range_in_list mylist (s + (j : ℤ) * B) (s + ((j : ℤ) + 1) * B) :=
  binWalk_getD_aux mylist e B hB (e - (s + B)).toNat s (s + B) le_rfl rfl j hj

/-- C5: each bin count is the number of events `t` with `min ≤ t ≤ max`, both
edges inclusive; adjacent bins `j` and `j+1` of the walk share the edge
`start_time + (j+1)*B`, and an event lying exactly on that edge passes the
membership test of both bins, so it is counted in both. -/
theorem C5_inclusive_edges (l : List ℤ) (s e B : ℤ) (hB : 0 < B) (j : ℕ) (t : ℤ)
    (hj : j + 1 < (distribution l s e B hB).length) (htl : t ∈ l)
    (hedge : t = s + ((j : ℤ) + 1) * B) :
    (∀ mn mx, count_range_in_list l mn mx
        = (l.filter fun x => decide (mn ≤ x ∧ x ≤ mx)).length)
      ∧ (distribution l s e B hB).getD j 0
          = count_range_in_list l (s + (j : ℤ) * B) (s + ((j : ℤ) + 1) * B)
      ∧ (distribution l s e B hB).getD (j + 1) 0
          = count_range_in_list l (s + ((j : ℤ) + 1) * B) (s + ((j : ℤ) + 2) * B)
      ∧ t ∈ l.filter (fun x => decide (s + (j : ℤ) * B ≤ x ∧ x ≤ s + ((j : ℤ) + 1) * B))
      ∧ t ∈ l.filter (fun x =>
          decide (s + ((j : ℤ) + 1) * B ≤ x ∧ x ≤ s + ((j : ℤ) + 2) * B)) := by
  have hjB : (j : ℤ) * B ≤ ((j : ℤ) + 1) * B := by nlinarith [Int.ofNat_nonneg j]
  have hjB2 : ((j : ℤ) + 1) * B ≤ ((j : ℤ) + 2) * B := by nlinarith [Int.ofNat_nonneg j]
  refine ⟨fun mn mx => count_range_eq_filter_length l mn mx,
    distribution_getD l s e B hB j (by omega), ?_, ?_, ?_⟩
  · have h := distribution_getD l s e B hB (j + 1) hj
    rw [h]
    have e1 : s + ((j + 1 : ℕ) : ℤ) * B = s + ((j : ℤ) + 1) * B := by push_cast; ring
    have e2 : s + (((j + 1 : ℕ) : ℤ) + 1) * B = s + ((j : ℤ) + 2) * B := by push_cast; ring
    rw [e1, e2]
  · rw [List.mem_filter]
    exact ⟨htl, by subst hedge; simp; omega⟩
  · rw [List.mem_filter]
    exact ⟨htl, by subst hedge; simp; omega⟩

/-- C5 witness: with one event at 3600, window `[0, 7200]` and `B = 3600`,
the event at the shared edge 3600 is counted in both bins. -/
theorem C5_witness :
    (∀ mn mx, count_range_in_list [3600] mn mx
        = ([3600].filter fun x : ℤ => decide (mn ≤ x ∧ x ≤ mx)).length)
      ∧ (distribution [3600] 0 7200 3600).getD 0 0
          = count_range_in_list [3600] (0 + ((0 : ℕ) : ℤ) * 3600)
              (0 + (((0 : ℕ) : ℤ) + 1) * 3600)
      ∧ (distribution [3600] 0 7200 3600).getD (0 + 1) 0
          = count_range_in_list [3600] (0 + (((0 : ℕ) : ℤ) + 1) * 3600)
              (0 + (((0 : ℕ) : ℤ) + 2) * 3600)
      ∧ (3600 : ℤ) ∈ [3600].filter
          (fun x : ℤ => decide (0 + ((0 : ℕ) : ℤ) * 3600 ≤ x ∧ x ≤ 0 + (((0 : ℕ) : ℤ) + 1) * 3600))
      ∧ (3600 : ℤ) ∈ [3600].filter
          (fun x : ℤ =>
            decide (0 + (((0 : ℕ) : ℤ) + 1) * 3600 ≤ x ∧ x ≤ 0 + (((0 : ℕ) : ℤ) + 2) * 3600)) :=
  C5_inclusive_edges [3600] 0 7200 3600 (by norm_num) 0 3600
    (by norm_num [distribution, binWalk_stop, binWalk_go, count_range_in_list])
    (by norm_num) (by norm_num)

/-- The exact sample variance of a list of rationals, as computed by
`statistics.stdev` before the final square root:
`Σ (x - mean)² / (n - 1)` with `mean = Σ x / n`.  The control flow of
`lambda_handler` only uses `stdev < 100`, which (for the nonnegative square
root) is equivalent to `sampleVariance < 100 ^ 2`. -/
def sampleVariance (l : List ℚ) : ℚ :=
  (l.map fun x => (x - l.sum / (l.length : ℚ)) ^ 2).sum / ((l.length : ℚ) - 1)

/-- Justification for embedding the guard `stdev < t` as
`sampleVariance < t ^ 2`. -/
theorem sqrt_sampleVariance_lt_iff (l : List ℚ) (t : ℝ) (ht : 0 < t) :
    Real.sqrt ((sampleVariance l : ℚ) : ℝ) < t ↔ ((sampleVariance l : ℚ) : ℝ) < t ^ 2 :=
  Real.sqrt_lt' ht

/-- A record of the DynamoDB table feeding the Detector: a tweet id together
with its `created_at` epoch timestamp. -/
structure TweetRecord where
  tweetID : String
  created_at : ℤ
deriving DecidableEq

/-- The observable side effects of one Detector invocation, in order:
`put_parameter` writes the `LASTSENT` checkpoint to SSM, `publish` sends the
SNS message.  The published message carries the distribution and the computed
dispersion (the dispersion is recorded as the exact sample variance, the
square of the reported standard deviation). -/
inductive Effect where
  | put_parameter (value : ℤ)
  | publish (dist : List ℕ) (variance : ℚ)
deriving DecidableEq

/-- The environment read by one Detector invocation: the DynamoDB table
contents, the stored `LASTSENT` checkpoint, and the current time (the source
calls `datetime.now()` several times within milliseconds; the embedding uses
one `now`). -/
structure DetectorEnv where
  table : List TweetRecord
  lastSent : ℤ
  now : ℤ
deriving DecidableEq

/-- The DynamoDB scan with `Key('created_at').between(start_time, end_time)`:
an inclusive range filter. -/
def scanBetween (table : List TweetRecord) (lo hi : ℤ) : List TweetRecord :=
  table.filter fun r => decide (lo ≤ r.created_at ∧ r.created_at ≤ hi)

/-- The decision flow of `lambda_handler` after the scan, with the scan
result, window edges, stored checkpoint and current time as inputs:
build the distribution (bin width `i = 3600`), compute the dispersion
(`statistics.stdev` raises `StatisticsError` on fewer than two data points,
modelled as `.error ()`), exit silently below the threshold 100 or within the
five-hour cooldown, otherwise write the checkpoint and then publish. -/
def detectorCore (mylist : List ℤ) (start_time end_time last_sent now : ℤ) :
    Except Unit (List Effect) :=
  let dist := distribution mylist start_time end_time 3600 (by norm_num)
  if dist.length < 2 then .error ()
  else
    let var := sampleVariance (dist.map fun c => (c : ℚ))
    if var < 100 ^ 2 then .ok []
    else
      let five_hours_ago := now - 5 * 3600
      if last_sent > five_hours_ago then .ok []
      else .ok [.put_parameter now, .publish dist var]

/-- `lambda_handler` of `tweet_analyzer.py`: scan the trailing six-hour
window (`HOURS_AGO = 6`), extract the `created_at` timestamps, and run the
decision flow. -/
def lambda_handler (env : DetectorEnv) : Except Unit (List Effect) :=
  let end_time := env.now
  let start_time := env.now - 6 * 3600
  let mylist := (scanBetween env.table start_time end_time).map TweetRecord.created_at
  detectorCore mylist start_time end_time env.lastSent env.now

/-- The distribution computed inside `lambda_handler`. -/
def detectorDistribution (env : DetectorEnv) : List ℕ :=
  distribution
    ((scanBetween env.table (env.now - 6 * 3600) env.now).map TweetRecord.created_at)
    (env.now - 6 * 3600) env.now 3600 (by norm_num)

theorem lambda_handler_eq (env : DetectorEnv) :
    lambda_handler env =
      if (detectorDistribution env).length < 2 then .error ()
      else if sampleVariance ((detectorDistribution env).map fun c => (c : ℚ)) < 100 ^ 2 then
        .ok []
      else if env.lastSent > env.now - 5 * 3600 then .ok []
      else
        .ok [.put_parameter env.now,
          .publish (detectorDistribution env)
            (sampleVariance ((detectorDistribution env).map fun c => (c : ℚ)))] := rfl

/-- The handler's six-hour window with 3600-second bins always yields exactly
six bins. -/
theorem detectorDistribution_length (env : DetectorEnv) :
    (detectorDistribution env).length = 6 := by
  rw [detectorDistribution, distribution_length]
  have h1 : (env.now - (env.now - 6 * 3600) - 3600).toNat = 18000 := by omega
  rw [h1]
  decide

/-- C1: whenever the computed dispersion reaches the threshold
(`stdev ≥ 100`, i.e. sample variance `≥ 100²`) and the stored checkpoint is
at most `now - 5` hours, the Detector writes `checkpoint = now` first and then
issues exactly one publish call whose message carries the distribution and the
computed dispersion. -/
theorem C1_notify_order (env : DetectorEnv)
    (hvar : ¬ sampleVariance ((detectorDistribution env).map fun c => (c : ℚ)) < 100 ^ 2)
    (hchk : env.lastSent ≤ env.now - 5 * 3600) :
    lambda_handler env =
      .ok [.put_parameter env.now,
        .publish (detectorDistribution env)
          (sampleVariance ((detectorDistribution env).map fun c => (c : ℚ)))] := by
  rw [lambda_handler_eq, detectorDistribution_length]
  rw [if_neg (by norm_num), if_neg hvar, if_neg (by omega)]

/-- C2: when the invocation does not reach the notifying step — dispersion
below the threshold, or checkpoint still within the five-hour cooldown — the
Detector terminates with no side effects: no publish, checkpoint unchanged. -/
theorem C2_silent (env : DetectorEnv)
    (h : sampleVariance ((detectorDistribution env).map fun c => (c : ℚ)) < 100 ^ 2
        ∨ env.now - 5 * 3600 < env.lastSent) :
    lambda_handler env = .ok [] := by
  rw [lambda_handler_eq, detectorDistribution_length]
  rw [if_neg (by norm_num)]
  rcases h with h | h
  · rw [if_pos h]
  · by_cases hv : sampleVariance ((detectorDistribution env).map fun c => (c : ℚ)) < 100 ^ 2
    · rw [if_pos hv]
    · rw [if_neg hv, if_pos h]

/-- C6: any checkpoint value written by a Detector run is strictly greater
than the checkpoint value the run read (the cooldown guard passed, and the
cooldown is positive), and equals the run's `now`. -/
theorem C6_checkpoint_increases (env : DetectorEnv) (effs : List Effect) (v : ℤ)
    (hrun : lambda_handler env = .ok effs) (hmem : Effect.put_parameter v ∈ effs) :
    env.lastSent < v ∧ v = env.now := by
  rw [lambda_handler_eq, detectorDistribution_length, if_neg (by norm_num)] at hrun
  by_cases hv : sampleVariance ((detectorDistribution env).map fun c => (c : ℚ)) < 100 ^ 2
  · rw [if_pos hv] at hrun
    obtain rfl : ([] : List Effect) = effs := by injection hrun
    simp at hmem
  · rw [if_neg hv] at hrun
    by_cases hc : env.lastSent > env.now - 5 * 3600
    · rw [if_pos hc] at hrun
      obtain rfl : ([] : List Effect) = effs := by injection hrun
      simp at hmem
    · rw [if_neg hc] at hrun
      have heffs : [Effect.put_parameter env.now,
          Effect.publish (detectorDistribution env)
            (sampleVariance ((detectorDistribution env).map fun c => (c : ℚ)))] = effs := by
        injection hrun
      rw [← heffs] at hmem
      simp only [List.mem_cons, List.mem_singleton] at hmem
      rcases hmem with hmem | hmem | hmem
      · obtain rfl : v = env.now := by injection hmem
        constructor
        · omega
        · rfl
      · exact absurd hmem (by simp)
      · simp at hmem

/-- C4: evaluation of the decision flow at a degenerate window — a window one
bin wide produces a single-entry distribution, on which `statistics.stdev`
raises `StatisticsError` (modelled `.error ()`) instead of treating the
situation as "no anomaly" as the spec requires. -/
theorem C4_short_window_errors : detectorCore [] 0 3600 0 3600 = .error () := by
  rw [detectorCore]
  norm_num [distribution, binWalk_stop, binWalk_go, count_range_in_list]

theorem count_range_replicate (n : ℕ) (t mn mx : ℤ) :
    count_range_in_list (List.replicate n t) mn mx
      = if mn ≤ t ∧ t ≤ mx then n else 0 := by
  induction n with
  | zero => simp [count_range_in_list]
  | succ k ih =>
      rw [List.replicate_succ]
      simp only [count_range_in_list, ih]
      split <;> omega

/-- An environment with a spike: 245 tweets at time 20000 inside the last bin
of the six-hour window ending at `now = 21600`, checkpoint last written at 0. -/
def spikyEnv : DetectorEnv :=
  ⟨List.replicate 245 ⟨"x", 20000⟩, 0, 21600⟩

theorem spiky_dist : detectorDistribution spikyEnv = [0, 0, 0, 0, 0, 245] := by
  rw [detectorDistribution]
  have h1 : scanBetween spikyEnv.table (spikyEnv.now - 6 * 3600) spikyEnv.now
      = List.replicate 245 ⟨"x", 20000⟩ := by
    have htab : spikyEnv.table = List.replicate 245 ⟨"x", 20000⟩ := rfl
    rw [scanBetween, htab, List.filter_eq_self]
    intro a ha
    rw [List.eq_of_mem_replicate ha]
    decide
  rw [h1, List.map_replicate]
  norm_num [distribution, binWalk_stop, binWalk_go, count_range_replicate, spikyEnv]

theorem spiky_var :
    sampleVariance (([0, 0, 0, 0, 0, 245] : List ℕ).map fun c => (c : ℚ)) = 60025 / 6 := by
  norm_num [sampleVariance]

theorem spiky_hvar :
    ¬ sampleVariance ((detectorDistribution spikyEnv).map fun c => (c : ℚ)) < 100 ^ 2 := by
  rw [spiky_dist, spiky_var]
  norm_num

/-- C1 witness: in the spiking environment the dispersion is above the
threshold and the checkpoint is stale, and the run writes the checkpoint and
then publishes, in that order. -/
theorem C1_witness :
    (¬ sampleVariance ((detectorDistribution spikyEnv).map fun c => (c : ℚ)) < 100 ^ 2)
      ∧ spikyEnv.lastSent ≤ spikyEnv.now - 5 * 3600
      ∧ lambda_handler spikyEnv =
          .ok [.put_parameter spikyEnv.now,
            .publish (detectorDistribution spikyEnv)
              (sampleVariance ((detectorDistribution spikyEnv).map fun c => (c : ℚ)))] :=
  ⟨spiky_hvar, by decide, C1_notify_order spikyEnv spiky_hvar (by decide)⟩

/-- An environment with no tweets at all: the distribution is all zeros. -/
def quietEnv : DetectorEnv := ⟨[], 0, 0⟩

theorem quiet_dist : detectorDistribution quietEnv = [0, 0, 0, 0, 0, 0] := by
  rw [detectorDistribution]
  norm_num [quietEnv, scanBetween, distribution, binWalk_stop, binWalk_go,
    count_range_in_list]

theorem quiet_varlt :
    sampleVariance ((detectorDistribution quietEnv).map fun c => (c : ℚ)) < 100 ^ 2 := by
  rw [quiet_dist]
  norm_num [sampleVariance]

/-- C2 witness: with an empty table the dispersion is 0, below the threshold,
and the run produces no side effects. -/
theorem C2_witness :
    (sampleVariance ((detectorDistribution quietEnv).map fun c => (c : ℚ)) < 100 ^ 2
        ∨ quietEnv.now - 5 * 3600 < quietEnv.lastSent)
      ∧ lambda_handler quietEnv = .ok [] :=
  ⟨Or.inl quiet_varlt, C2_silent quietEnv (Or.inl quiet_varlt)⟩

theorem spiky_run :
    lambda_handler spikyEnv =
      .ok [.put_parameter 21600,
        .publish [0, 0, 0, 0, 0, 245]
          (sampleVariance (([0, 0, 0, 0, 0, 245] : List ℕ).map fun c => (c : ℚ)))] := by
  rw [lambda_handler_eq, spiky_dist]
  rw [if_neg (by norm_num), if_neg (by rw [spiky_var]; norm_num), if_neg (by decide)]
  rfl

/-- C6 witness: the spiking run read checkpoint 0 and wrote checkpoint
21600 = now, a strictly greater value. -/
theorem C6_witness : spikyEnv.lastSent < 21600 ∧ (21600 : ℤ) = spikyEnv.now :=
  C6_checkpoint_increases spikyEnv
    [.put_parameter 21600,
      .publish [0, 0, 0, 0, 0, 245]
        (sampleVariance (([0, 0, 0, 0, 0, 245] : List ℕ).map fun c => (c : ℚ)))]
    21600 spiky_run (List.mem_cons_self _ _)

end TweetAnalyzer

namespace TweetQuery

/-- One parsed response page of the Twitter recent-search API, as consumed by
`lambda_handler` in `tweet_query.py`: the HTTP status, `meta.result_count`,
the `data` array of tweets (id together with `created_at`, the latter already
parsed by `dateutil.parser.parse` and converted to epoch seconds), and the
optional `meta.next_token` continuation cursor. -/
structure Page where
  status : ℕ
  result_count : ℕ
  data : List (String × ℤ)
  next_token : Option String
deriving DecidableEq

/-- `table.put_item(Item={'tweetID': id, 'created_at': time})`: a DynamoDB
put keyed by the partition key `tweetID` — replace the record with that key
if present, append it otherwise. -/
def put_item (tb : List (String × ℤ)) (id : String) (t : ℤ) : List (String × ℤ) :=
  if tb.any fun r => decide (r.1 = id) then
    tb.map fun r => if r.1 = id then (id, t) else r
  else
    tb ++ [(id, t)]

/-- The `for tweet in tweets_data["data"]` loop: upsert every tweet of a page
in order. -/
def applyPage (tb : List (String × ℤ)) (p : Page) : List (String × ℤ) :=
  p.data.foldl (fun tb it => put_item tb it.1 it.2) tb

/-- Outcome of one Fetcher invocation.  `calls` records, per search request
issued and in order, the continuation cursor the request carried (`none`
means the request used the `start_time` filter).  `httpError` is the
non-success abort, surfacing the status and the response payload.  `starved`
marks the off-model situation in which the loop still wants a page but the
response oracle has none left. -/
inductive FetchOutcome where
  | done (calls : List (Option String)) (table : List (String × ℤ))
  | httpError (calls : List (Option String)) (status : ℕ) (payload : Page)
      (table : List (String × ℤ))
  | starved (calls : List (Option String)) (table : List (String × ℤ))
deriving DecidableEq

/-- Prepend the cursor of the current request to an outcome's call log. -/
def withCall (tok : Option String) : FetchOutcome → FetchOutcome
  | .done cs tb => .done (tok :: cs) tb
  | .httpError cs s p tb => .httpError (tok :: cs) s p tb
  | .starved cs tb => .starved (tok :: cs) tb

/-- The `while again:` loop of `lambda_handler` in `tweet_query.py`, with the
successive API responses supplied as an oracle list.  Each iteration issues
one request (carrying `next_token` when one is pending, the `start_time`
filter otherwise), aborts on a non-200 status surfacing status and payload,
returns on `result_count == 0`, otherwise upserts every tweet of the page and
continues exactly when the page carries a `next_token`. -/
def fetchLoop (tok : Option String) (tb : List (String × ℤ)) :
    List Page → FetchOutcome
  | [] => .starved [tok] tb
  | p :: rest =>
      if p.status ≠ 200 then .httpError [tok] p.status p tb
      else if p.result_count = 0 then .done [tok] tb
      else
        match p.next_token with
        | none => .done [tok] (applyPage tb p)
        | some t => withCall tok (fetchLoop (some t) (applyPage tb p) rest)

/-- `lambda_handler` of `tweet_query.py`: the loop starts with an empty
`next_token` (so the first request uses `start_time`) and the current table
contents. -/
def lambda_handler (pages : List Page) (tb : List (String × ℤ)) : FetchOutcome :=
  fetchLoop none tb pages

/-- The ids present in the event store. -/
def keys (tb : List (String × ℤ)) : List String := tb.map Prod.fst

theorem put_item_of_mem (tb : List (String × ℤ)) (id : String) (t : ℤ)
    (h : id ∈ keys tb) :
    put_item tb id t = tb.map fun r => if r.1 = id then (id, t) else r := by
  rw [put_item, if_pos]
  rw [List.any_eq_true]
  rw [keys, List.mem_map] at h
  obtain ⟨r, hr, hrid⟩ := h
  exact ⟨r, hr, by simp [hrid]⟩

theorem put_item_of_not_mem (tb : List (String × ℤ)) (id : String) (t : ℤ)
    (h : id ∉ keys tb) :
    put_item tb id t = tb ++ [(id, t)] := by
  rw [put_item, if_neg]
  rw [List.any_eq_true]
  rintro ⟨r, hr, hrid⟩
  simp only [decide_eq_true_eq] at hrid
  exact h (by rw [keys, List.mem_map]; exact ⟨r, hr, hrid⟩)

/-- A put leaves the key list unchanged when the key is already present, and
appends the key otherwise. -/
theorem keys_put_item (tb : List (String × ℤ)) (id : String) (t : ℤ) :
    keys (put_item tb id t) = if id ∈ keys tb then keys tb else keys tb ++ [id] := by
  by_cases h : id ∈ keys tb
  · rw [put_item_of_mem tb id t h, if_pos h, keys, keys, List.map_map]
    refine List.map_congr_left fun r hr => ?_
    by_cases hrid : r.1 = id
    · simp [hrid]
    · simp [hrid]
  · rw [put_item_of_not_mem tb id t h, if_neg h, keys, keys, List.map_append]
    rfl

theorem mem_keys_put_item (tb : List (String × ℤ)) (id a : String) (t : ℤ) :
    a ∈ keys (put_item tb id t) ↔ a ∈ keys tb ∨ a = id := by
  rw [keys_put_item]
  by_cases h : id ∈ keys tb
  · rw [if_pos h]
    constructor
    · exact Or.inl
    · rintro (ha | rfl)
      · exact ha
      · exact h
  · rw [if_neg h, List.mem_append, List.mem_singleton]

theorem keys_put_item_nodup (tb : List (String × ℤ)) (id : String) (t : ℤ)
    (h : (keys tb).Nodup) : (keys (put_item tb id t)).Nodup := by
  rw [keys_put_item]
  by_cases hm : id ∈ keys tb
  · rw [if_pos hm]
    exact h
  · rw [if_neg hm]
    simp [List.nodup_append, h, hm]

/-- Every record of the table after a put whose key is the put key carries
the put value. -/
theorem put_item_key_value (tb : List (String × ℤ)) (id : String) (t : ℤ) :
    ∀ r ∈ put_item tb id t, r.1 = id → r = (id, t) := by
  intro r hr hrid
  by_cases h : id ∈ keys tb
  · rw [put_item_of_mem tb id t h, List.mem_map] at hr
    obtain ⟨r', _, hmap⟩ := hr
    by_cases h' : r'.1 = id
    · rw [if_pos h'] at hmap
      exact hmap.symm
    · rw [if_neg h'] at hmap
      exact absurd (hmap ▸ hrid) h'
  · rw [put_item_of_not_mem tb id t h, List.mem_append, List.mem_singleton] at hr
    rcases hr with hr | hr
    · exact absurd (by rw [keys, List.mem_map]; exact ⟨r, hr, hrid⟩) h
    · exact hr

/-- C8: upserting the same `{id, created_at}` twice leaves the store exactly
as upserting it once, and a put preserves the at-most-one-record-per-id
invariant of the store. -/
theorem C8_upsert_idempotent (tb : List (String × ℤ)) (id : String) (t : ℤ)
    (h : (keys tb).Nodup) :
    put_item (put_item tb id t) id t = put_item tb id t
      ∧ (keys (put_item tb id t)).Nodup := by
  refine ⟨?_, keys_put_item_nodup tb id t h⟩
  have hmem : id ∈ keys (put_item tb id t) := by
    rw [mem_keys_put_item]
    exact Or.inr rfl
  rw [put_item_of_mem (put_item tb id t) id t hmem]
  have : ∀ r ∈ put_item tb id t, (if r.1 = id then (id, t) else r) = r := by
    intro r hr
    by_cases hrid : r.1 = id
    · rw [if_pos hrid, put_item_key_value tb id t r hr hrid]
    · rw [if_neg hrid]
  rw [List.map_congr_left this]
  simp

theorem mem_keys_foldl_put (l : List (String × ℤ)) :
    ∀ (tb : List (String × ℤ)) (a : String),
      a ∈ keys (l.foldl (fun tb it => put_item tb it.1 it.2) tb)
        ↔ a ∈ keys tb ∨ a ∈ l.map Prod.fst := by
  induction l with
  | nil => simp
  | cons it l ih =>
      intro tb a
      rw [List.foldl_cons, ih, mem_keys_put_item, List.map_cons, List.mem_cons]
      tauto

theorem keys_foldl_put_nodup (l : List (String × ℤ)) :
    ∀ tb : List (String × ℤ), (keys tb).Nodup →
      (keys (l.foldl (fun tb it => put_item tb it.1 it.2) tb)).Nodup := by
  induction l with
  | nil => exact fun tb h => h
  | cons it l ih =>
      intro tb h
      rw [List.foldl_cons]
      exact ih (put_item tb it.1 it.2) (keys_put_item_nodup tb it.1 it.2 h)

theorem mem_keys_applyPage (tb : List (String × ℤ)) (p : Page) (a : String) :
    a ∈ keys (applyPage tb p) ↔ a ∈ keys tb ∨ a ∈ p.data.map Prod.fst :=
  mem_keys_foldl_put p.data tb a

theorem keys_applyPage_nodup (tb : List (String × ℤ)) (p : Page)
    (h : (keys tb).Nodup) : (keys (applyPage tb p)).Nodup :=
  keys_foldl_put_nodup p.data tb h

theorem mem_keys_foldl_applyPage (ps : List Page) :
    ∀ (tb : List (String × ℤ)) (a : String),
      a ∈ keys (ps.foldl applyPage tb)
        ↔ a ∈ keys tb ∨ ∃ p ∈ ps, a ∈ p.data.map Prod.fst := by
  induction ps with
  | nil => simp
  | cons p ps ih =>
      intro tb a
      rw [List.foldl_cons, ih, mem_keys_applyPage]
      simp only [List.mem_cons]
      constructor
      · rintro ((h | h) | ⟨q, hq, hmem⟩)
        · exact Or.inl h
        · exact Or.inr ⟨p, Or.inl rfl, h⟩
        · exact Or.inr ⟨q, Or.inr hq, hmem⟩
      · rintro (h | ⟨q, rfl | hq, hmem⟩)
        · exact Or.inl (Or.inl h)
        · exact Or.inl (Or.inr hmem)
        · exact Or.inr ⟨q, hq, hmem⟩

theorem keys_foldl_applyPage_nodup (ps : List Page) :
    ∀ tb : List (String × ℤ), (keys tb).Nodup → (keys (ps.foldl applyPage tb)).Nodup := by
  induction ps with
  | nil => exact fun tb h => h
  | cons p ps ih =>
      intro tb h
      rw [List.foldl_cons]
      exact ih (applyPage tb p) (keys_applyPage_nodup tb p h)

theorem fetchLoop_success (last : Page) (h1 : last.status = 200)
    (h2 : last.result_count ≠ 0) (h3 : last.next_token = none) :
    ∀ (init : List Page) (tok : Option String) (tb : List (String × ℤ)),
      (∀ p ∈ init, p.status = 200) →
      (∀ p ∈ init, p.result_count ≠ 0) →
      (∀ p ∈ init, p.next_token.isSome) →
      fetchLoop tok tb (init ++ [last])
        = .done (tok :: init.map Page.next_token) ((init ++ [last]).foldl applyPage tb) := by
  intro init
  induction init with
  | nil =>
      intro tok tb _ _ _
      rw [List.nil_append]
      simp only [fetchLoop]
      rw [if_neg (by simp [h1]), if_neg h2, h3]
      simp
  | cons p init ih =>
      intro tok tb hs hc hn
      rw [List.cons_append]
      simp only [fetchLoop]
      rw [if_neg (by simp [hs p (List.mem_cons_self p init)]),
        if_neg (hc p (List.mem_cons_self p init))]
      obtain ⟨t, ht⟩ := Option.isSome_iff_exists.mp (hn p (List.mem_cons_self p init))
      rw [ht]
      show withCall tok (fetchLoop (some t) (applyPage tb p) (init ++ [last]))
          = FetchOutcome.done (tok :: List.map Page.next_token (p :: init))
              (List.foldl applyPage tb (p :: (init ++ [last])))
      rw [ih (some t) (applyPage tb p)
        (fun q hq => hs q (List.mem_cons_of_mem p hq))
        (fun q hq => hc q (List.mem_cons_of_mem p hq))
        (fun q hq => hn q (List.mem_cons_of_mem p hq))]
      rw [withCall]
      simp [ht]

/-- C7: for a page sequence in which every page is a successful non-empty
result and every page but the last carries a continuation cursor, the Fetcher
issues exactly one search call per page — the first with the `start_time`
filter (`none`), each later one with the cursor returned by the previous
page — terminates at the cursorless page, and after the run the store holds
exactly the previous ids plus the union of all returned ids, one record
each. -/
theorem C7_pagination (init : List Page) (last : Page) (tb : List (String × ℤ))
    (h200 : ∀ p ∈ init ++ [last], p.status = 200)
    (hcnt : ∀ p ∈ init ++ [last], p.result_count ≠ 0)
    (hcur : ∀ p ∈ init, p.next_token.isSome)
    (hlast : last.next_token = none)
    (htb : (keys tb).Nodup) :
    lambda_handler (init ++ [last]) tb
        = .done (none :: init.map Page.next_token) ((init ++ [last]).foldl applyPage tb)
      ∧ (none :: init.map Page.next_token).length = (init ++ [last]).length
      ∧ (∀ a, a ∈ keys ((init ++ [last]).foldl applyPage tb)
          ↔ a ∈ keys tb ∨ ∃ p ∈ init ++ [last], a ∈ p.data.map Prod.fst)
      ∧ (keys ((init ++ [last]).foldl applyPage tb)).Nodup := by
  refine ⟨?_, ?_, ?_, ?_⟩
  · exact fetchLoop_success last
      (h200 last (List.mem_append_right init (List.mem_singleton_self last)))
      (hcnt last (List.mem_append_right init (List.mem_singleton_self last)))
      hlast init none tb
      (fun q hq => h200 q (List.mem_append_left [last] hq))
      (fun q hq => hcnt q (List.mem_append_left [last] hq))
      hcur
  · simp
  · exact fun a => mem_keys_foldl_applyPage (init ++ [last]) tb a
  · exact keys_foldl_applyPage_nodup (init ++ [last]) tb htb

theorem fetchLoop_abort (bad : Page) (rest : List Page) (hbad : bad.status ≠ 200) :
    ∀ (good : List Page) (tok : Option String) (tb : List (String × ℤ)),
      (∀ p ∈ good, p.status = 200) →
      (∀ p ∈ good, p.result_count ≠ 0) →
      (∀ p ∈ good, p.next_token.isSome) →
      fetchLoop tok tb (good ++ bad :: rest)
        = .httpError (tok :: good.map Page.next_token) bad.status bad
            (good.foldl applyPage tb) := by
  intro good
  induction good with
  | nil =>
      intro tok tb _ _ _
      rw [List.nil_append]
      simp only [fetchLoop]
      rw [if_pos hbad]
      simp
  | cons p good ih =>
      intro tok tb hs hc hn
      rw [List.cons_append]
      simp only [fetchLoop]
      rw [if_neg (by simp [hs p (List.mem_cons_self p good)]),
        if_neg (hc p (List.mem_cons_self p good))]
      obtain ⟨t, ht⟩ := Option.isSome_iff_exists.mp (hn p (List.mem_cons_self p good))
      rw [ht]
      show withCall tok (fetchLoop (some t) (applyPage tb p) (good ++ bad :: rest))
          = FetchOutcome.httpError (tok :: List.map Page.next_token (p :: good))
              bad.status bad (List.foldl applyPage tb (p :: good))
      rw [ih (some t) (applyPage tb p)
        (fun q hq => hs q (List.mem_cons_of_mem p hq))
        (fun q hq => hc q (List.mem_cons_of_mem p hq))
        (fun q hq => hn q (List.mem_cons_of_mem p hq))]
      rw [withCall]
      simp [ht]

/-- C9: when the run reaches a response with a non-success status, the
Fetcher aborts at that request: it makes no further search calls (one call
per good page plus the failing one, the pages after the failure untouched),
surfaces the status and the payload, keeps the upserts already applied from
the earlier pages, applies nothing from the failing page onward — and the
Fetcher has no checkpoint to advance, the outcome carrying no checkpoint
write at all. -/
theorem C9_abort (good : List Page) (bad : Page) (rest : List Page)
    (tb : List (String × ℤ))
    (h200 : ∀ p ∈ good, p.status = 200)
    (hcnt : ∀ p ∈ good, p.result_count ≠ 0)
    (hcur : ∀ p ∈ good, p.next_token.isSome)
    (hbad : bad.status ≠ 200) :
    lambda_handler (good ++ bad :: rest) tb
      = .httpError (none :: good.map Page.next_token) bad.status bad
          (good.foldl applyPage tb) :=
  fetchLoop_abort bad rest hbad good none tb h200 hcnt hcur

/-- A concrete three-page response sequence: two cursor-carrying pages and a
final cursorless page. -/
def page1 : Page := ⟨200, 1, [("a", 10)], some "t1"⟩

def page2 : Page := ⟨200, 1, [("b", 20)], some "t2"⟩

def page3 : Page := ⟨200, 1, [("c", 30)], none⟩

/-- A failing response page. -/
def badPage : Page := ⟨500, 0, [], none⟩

/-- C7 witness: the spec's 3-page scenario — three calls (`start_time`, then
the two returned cursors), and the store ends up with the union of the three
returned ids, one record each. -/
theorem C7_witness :
    lambda_handler ([page1, page2] ++ [page3]) []
        = .done (none :: [page1, page2].map Page.next_token)
            (([page1, page2] ++ [page3]).foldl applyPage [])
      ∧ (none :: [page1, page2].map Page.next_token).length
          = ([page1, page2] ++ [page3]).length
      ∧ (∀ a, a ∈ keys (([page1, page2] ++ [page3]).foldl applyPage [])
          ↔ a ∈ keys ([] : List (String × ℤ))
              ∨ ∃ p ∈ [page1, page2] ++ [page3], a ∈ p.data.map Prod.fst)
      ∧ (keys (([page1, page2] ++ [page3]).foldl applyPage [])).Nodup :=
  C7_pagination [page1, page2] page3 [] (by decide) (by decide) (by decide) rfl
    (by decide)

/-- The concrete run of the C7 witness scenario, fully evaluated. -/
theorem C7_witness_eval :
    lambda_handler ([page1, page2] ++ [page3]) []
      = .done [none, some "t1", some "t2"] [("a", 10), ("b", 20), ("c", 30)] := by
  decide

/-- C9 witness: a good page, then a 500 response, then a further page; the
run stops at the failure with the first page's upsert retained. -/
theorem C9_witness :
    lambda_handler ([page1] ++ badPage :: [page2]) []
      = .httpError (none :: [page1].map Page.next_token) badPage.status badPage
          ([page1].foldl applyPage []) :=
  C9_abort [page1] badPage [page2] [] (by decide) (by decide) (by decide) (by decide)

/-- The concrete run of the C9 witness scenario, fully evaluated: one call
with `start_time`, one with the cursor, status 500 surfaced, only page 1's
record stored, page 2 never fetched. -/
theorem C9_witness_eval :
    lambda_handler ([page1] ++ badPage :: [page2]) []
      = .httpError [none, some "t1"] 500 badPage [("a", 10)] := by
  decide

/-- C8 witness: a concrete double upsert into a one-record store. -/
theorem C8_witness :
    (keys [("a", (1 : ℤ))]).Nodup
      ∧ (put_item (put_item [("a", (1 : ℤ))] "b" 2) "b" 2 = put_item [("a", 1)] "b" 2
          ∧ (keys (put_item [("a", (1 : ℤ))] "b" 2)).Nodup) :=
  ⟨by decide, C8_upsert_idempotent [("a", 1)] "b" 2 (by decide)⟩

end TweetQuery
